import Mathlib

/-!
Verification of the response parser / reassembler of the Hinglish batch
translator (files `main_code.py` and `streamlit_app.py`).

Strings are modelled as `List Char`.  The Python string primitives used by
the source (`str.strip`, `str.split('\n')`, `'\n'.join`, decimal rendering
of integers in f-strings, and the regex `^\[(\d+)\](.*)` used with
`re.match`) are modelled by the executable functions below, shared by the
embeddings of both source files.  Python's stable `list.sort(key=...)` is
modelled by `List.insertionSort`, which is stable for a total preorder and
hence extensionally equal to any stable sort.
-/

set_option maxHeartbeats 1000000

/-- Whitespace characters stripped by Python's `str.strip()` (ASCII range). -/
def isPySpace (c : Char) : Bool :=
  c = ' ' || c = '\t' || c = '\n' || c = '\r' || c = '\x0b' || c = '\x0c'

/-- Left part of Python `str.strip`: drop leading whitespace. -/
def lstrip (l : List Char) : List Char := l.dropWhile isPySpace

/-- Right part of Python `str.strip`: drop trailing whitespace. -/
def rstrip : List Char → List Char
  | [] => []
  | c :: l =>
    let r := rstrip l
    if r.isEmpty then (if isPySpace c then [] else [c]) else c :: r

/-- Python `str.strip()`: drop leading and trailing whitespace. -/
def pyStrip (l : List Char) : List Char := lstrip (rstrip l)

/-- Python `str.split(sep)` for a one-character separator: keeps empty
pieces, `"".split(sep) == [""]`. -/
def pySplit (sep : Char) : List Char → List (List Char)
  | [] => [[]]
  | c :: rest =>
    if c = sep then [] :: pySplit sep rest
    else
      match pySplit sep rest with
      | [] => [[c]]
      | h :: t => (c :: h) :: t

/-- Python `sep.join(pieces)`. -/
def joinWith (sep : List Char) : List (List Char) → List Char
  | [] => []
  | [l] => l
  | l :: ls => l ++ sep ++ joinWith sep ls

/-- Longest run of ASCII digits at the head of the list, with the rest;
models the greedy `\d+` group of the regex `^\[(\d+)\](.*)`. -/
def leadingDigits : List Char → List Char × List Char
  | [] => ([], [])
  | c :: rest =>
    if c.isDigit then
      let p := leadingDigits rest
      (c :: p.1, p.2)
    else ([], c :: rest)

/-- Python `int` on a string of decimal digits. -/
def digitsToNat (l : List Char) : Nat :=
  l.foldl (fun n c => n * 10 + (c.toNat - 48)) 0

/-- `re.match(r'^\[(\d+)\](.*)', line)`: `some (int(group(1)), group(2))`
when the line starts with `[`, one or more digits, `]`; otherwise `none`.
(Backtracking over a shorter digit group can never succeed, since any
shorter group leaves a digit, not `]`, after it.) -/
def parseMarker (l : List Char) : Option (Nat × List Char) :=
  match l with
  | '[' :: rest =>
    let p := leadingDigits rest
    if p.1.isEmpty then none
    else
      match p.2 with
      | ']' :: text => some (digitsToNat p.1, text)
      | _ => none
  | _ => none

/-- The ASCII digit character for `n < 10`. -/
def digitChar (n : Nat) : Char := Char.ofNat (48 + n)

/-- Fuel-driven decimal rendering helper. -/
def natDigitsAux : Nat → Nat → List Char → List Char
  | 0, _, acc => acc
  | fuel + 1, n, acc =>
    if n < 10 then digitChar n :: acc
    else natDigitsAux fuel (n / 10) (digitChar (n % 10) :: acc)

/-- Decimal rendering of a natural number, as Python's `str`/f-string. -/
def natDigits (n : Nat) : List Char := natDigitsAux (n + 1) n []

/-- The comparison key used by `translations.sort(key=lambda x: x[0])`. -/
def ordinalLE (a b : Nat × List Char) : Prop := a.1 ≤ b.1

instance : DecidableRel ordinalLE := fun a b => Nat.decLe a.1 b.1

instance : IsTotal (Nat × List Char) ordinalLE :=
  ⟨fun a b => Nat.le_total a.1 b.1⟩

instance : IsTrans (Nat × List Char) ordinalLE :=
  ⟨fun _ _ _ h h' => Nat.le_trans h h'⟩

/-- Strict version of the sort key comparison, used to show that sorting
a list of entries with pairwise-distinct ordinals has a unique result. -/
def ordinalLT (a b : Nat × List Char) : Prop := a.1 < b.1

instance : IsAntisymm (Nat × List Char) ordinalLT :=
  ⟨fun _ _ h h' => absurd (Nat.lt_trans h h') (Nat.lt_irrefl _)⟩

namespace MainCode

/-- The line scanner of `process_entire_json` (main_code.py lines 66-92):
iterate over the lines, skipping blank lines; a line matching the marker
regex finalizes the open entry (if any) and opens a new one; any other
line is appended to the accumulated text with a `" "` separator; at the
end the open entry (if any) is finalized.  State: `curIdx` is
`current_index` (`none` = Python `None`), `curText` is `current_text`. -/
def scanLines : List (List Char) → Option Nat → List Char → List (Nat × List Char)
  | [], none, _ => []
  | [], some i, t => [(i, pyStrip t)]
  | line :: rest, curIdx, curText =>
    let l := pyStrip line
    if l.isEmpty then scanLines rest curIdx curText
    else
      match parseMarker l with
      | some (idx, txt) =>
        match curIdx with
        | none => scanLines rest (some idx) (pyStrip txt)
        | some i => (i, pyStrip curText) :: scanLines rest (some idx) (pyStrip txt)
      | none => scanLines rest curIdx (curText ++ ' ' :: l)

/-- main_code.py lines 60 and 66-92: strip the raw response, split it on
newlines, and run the scanner with `current_index = None`,
`current_text = ""`. -/
def parseTranslations (responseText : List Char) : List (Nat × List Char) :=
  scanLines (pySplit '\n' (pyStrip responseText)) none []

/-- main_code.py line 99: `translations.sort(key=lambda x: x[0])`. -/
def sortedTranslations (responseText : List Char) : List (Nat × List Char) :=
  List.insertionSort ordinalLE (parseTranslations responseText)

/-- main_code.py line 110: the placeholder text built for a missing
position. -/
def placeholderFor (t : List Char) : List Char :=
  ("[Translation missing for: ".data) ++ t ++ ("]".data)

/-- main_code.py lines 102-110: keep the sorted entries whose ordinal is
in `[1, len(data)]`, then pad with placeholders for the trailing input
positions while the output is shorter than the input. -/
def assembleOutput (inputs : List (List Char)) (sorted : List (Nat × List Char)) :
    List (List Char) :=
  let output_data := (sorted.filter fun p => decide (1 ≤ p.1 ∧ p.1 ≤ inputs.length)).map Prod.snd
  if output_data.length < inputs.length then
    output_data ++
      (List.range' output_data.length (inputs.length - output_data.length)).map
        (fun i => placeholderFor (inputs.getD i []))
  else output_data

/-- The parse-and-reassemble part of `process_entire_json`
(main_code.py lines 60-110), from the input texts and the raw response
text to the output texts. -/
def process_entire_json (inputs : List (List Char)) (responseText : List Char) :
    List (List Char) :=
  assembleOutput inputs (sortedTranslations responseText)

/-- main_code.py lines 95-96: the condition under which the warning
`"Warning: Expected ... translations but got ..."` is printed. -/
def printsWarning (inputs : List (List Char)) (responseText : List Char) : Bool :=
  decide ((parseTranslations responseText).length ≠ inputs.length)

/-- The ordinal-tagged item line `f"[{i+1}] {text}"` of main_code.py
line 28, with the 1-based ordinal passed directly. -/
def taggedLine (k : Nat) (text : List Char) : List Char :=
  '[' :: natDigits k ++ ']' :: ' ' :: text

/-- The fixed instruction template of main_code.py lines 31-51, part
before the `{0}` placeholder. -/
def templateBefore : List Char :=
  ("\n    Translate the following English texts to natural, conversational Hinglish (Hindi-English mix).\n\n    Guidelines:\n    1. Keep translations natural sounding, not robotic or literal\n    2. important : Convert numbers or numerical values to words in 'hindi' words.\n    3. Maintain English words that are commonly used in Hinglish conversation\n    4. Consider context between sentences for a natural flow\n    5. The output should feel like a casual conversation between Indians\n\n    For each text below, provide the Hinglish translation. Maintain the numbering format exactly as [1], [2], etc.\n\n    ").data

/-- The fixed instruction template of main_code.py lines 31-51, part
after the `{0}` placeholder. -/
def templateAfter : List Char :=
  ("\n\n    Return ONLY the translated texts with their corresponding numbers in this exact format:\n    [1] <Hinglish translation>\n    [2] <Hinglish translation>\n    ...\n\n    Do not include any explanations, only the numbered translations.\n    ").data

/-- main_code.py lines 27-54: tag each text with its 1-based ordinal,
join the tagged lines with blank-line separators, and substitute the
result for the `{0}` placeholder of the fixed template. -/
def buildPrompt (texts : List (List Char)) : List Char :=
  templateBefore ++
    joinWith ('\n' :: '\n' :: []) (texts.enum.map fun p => taggedLine (p.1 + 1) p.2) ++
    templateAfter

end MainCode

namespace StreamlitApp

/-- The line scanner of `process_json` (streamlit_app.py lines 108-134);
same loop as in main_code.py. -/
def scanLines : List (List Char) → Option Nat → List Char → List (Nat × List Char)
  | [], none, _ => []
  | [], some i, t => [(i, pyStrip t)]
  | line :: rest, curIdx, curText =>
    let l := pyStrip line
    if l.isEmpty then scanLines rest curIdx curText
    else
      match parseMarker l with
      | some (idx, txt) =>
        match curIdx with
        | none => scanLines rest (some idx) (pyStrip txt)
        | some i => (i, pyStrip curText) :: scanLines rest (some idx) (pyStrip txt)
      | none => scanLines rest curIdx (curText ++ ' ' :: l)

/-- streamlit_app.py lines 99 and 108-134: strip the raw response, split
on newlines, run the scanner. -/
def parseTranslations (responseText : List Char) : List (Nat × List Char) :=
  scanLines (pySplit '\n' (pyStrip responseText)) none []

/-- streamlit_app.py line 137: `translations.sort(key=lambda x: x[0])`. -/
def sortedTranslations (responseText : List Char) : List (Nat × List Char) :=
  List.insertionSort ordinalLE (parseTranslations responseText)

/-- streamlit_app.py line 148: the placeholder text for a missing
position. -/
def placeholderFor (t : List Char) : List Char :=
  ("[Translation missing for: ".data) ++ t ++ ("]".data)

/-- streamlit_app.py lines 140-148: keep sorted in-range entries, pad
with placeholders for trailing input positions. -/
def assembleOutput (inputs : List (List Char)) (sorted : List (Nat × List Char)) :
    List (List Char) :=
  let output_data := (sorted.filter fun p => decide (1 ≤ p.1 ∧ p.1 ≤ inputs.length)).map Prod.snd
  if output_data.length < inputs.length then
    output_data ++
      (List.range' output_data.length (inputs.length - output_data.length)).map
        (fun i => placeholderFor (inputs.getD i []))
  else output_data

/-- The parse-and-reassemble part of `process_json`
(streamlit_app.py lines 99-150). -/
def process_json (inputs : List (List Char)) (responseText : List Char) :
    List (List Char) :=
  assembleOutput inputs (sortedTranslations responseText)

/-- The item line `f"[{i+1}] {text}"` of streamlit_app.py line 69. -/
def taggedLine (k : Nat) (text : List Char) : List Char :=
  '[' :: natDigits k ++ ']' :: ' ' :: text

/-- The fixed instruction template of streamlit_app.py lines 71-91, part
before the `{0}` placeholder (its spacer lines hold four spaces and
guideline 2 has a trailing space, unlike main_code.py). -/
def templateBefore : List Char :=
  ("\n    Translate the following English texts to natural, conversational Hinglish (Hindi-English mix).\n    \n    Guidelines:\n    1. Keep translations natural sounding, not robotic or literal\n    2. Convert numbers or numerical values or currencies to words in 'hindi'. \n    3. Maintain English words that are commonly used in Hinglish conversation\n    4. Consider context between sentences for a natural flow\n    5. The output should feel like a casual conversation between Indians\n    \n    For each text below, provide the Hinglish translation. Maintain the numbering format exactly as [1], [2], etc.\n    \n    ").data

/-- The fixed instruction template of streamlit_app.py lines 71-91, part
after the `{0}` placeholder. -/
def templateAfter : List Char :=
  ("\n    \n    Return ONLY the translated texts with their corresponding numbers in this exact format:\n    [1] <Hinglish translation>\n    [2] <Hinglish translation>\n    ...\n    \n    Do not include any explanations, only the numbered translations.\n    ").data

/-- streamlit_app.py lines 68-93: tag each text with its 1-based ordinal,
join with blank-line separators, substitute into the fixed template. -/
def buildPrompt (texts : List (List Char)) : List Char :=
  templateBefore ++
    joinWith ('\n' :: '\n' :: []) (texts.enum.map fun p => taggedLine (p.1 + 1) p.2) ++
    templateAfter

end StreamlitApp

/-- A single-line marker entry `[k] t` as it appears in a response. -/
def markerLine (k : Nat) (text : List Char) : List Char :=
  '[' :: natDigits k ++ ']' :: ' ' :: text

/-- Append a character to the last piece of a non-empty list of pieces
(the shape `pySplit` takes when a non-separator character is appended). -/
def appLast (c : Char) : List (List Char) → List (List Char)
  | [] => [[c]]
  | [l] => [l ++ [c]]
  | l :: ls => l :: appLast c ls

/-- The stripped non-blank lines of a line list: what the scanner loop
actually consumes. -/
def normList (L : List (List Char)) : List (List Char) :=
  (L.map pyStrip).filter fun l => !l.isEmpty

/-- The stripped non-blank lines of a response string. -/
def normL (s : List Char) : List (List Char) := normList (pySplit '\n' s)

/-- The scanner restricted to already-stripped, non-blank lines; the
original scanner factors through it (see `scanLines_eq_scanCore`). -/
def scanCore : List (List Char) → Option Nat → List Char → List (Nat × List Char)
  | [], none, _ => []
  | [], some i, t => [(i, pyStrip t)]
  | l :: rest, curIdx, curText =>
    match parseMarker l with
    | some (idx, txt) =>
      match curIdx with
      | none => scanCore rest (some idx) (pyStrip txt)
      | some i => (i, pyStrip curText) :: scanCore rest (some idx) (pyStrip txt)
    | none => scanCore rest curIdx (curText ++ ' ' :: l)

/-- Accumulate continuation pieces the way the scanner's
`current_text += " " + line` does. -/
def joinPieces (t : List Char) (cs : List (List Char)) : List Char :=
  cs.foldl (fun a c => a ++ ' ' :: c) t

/-- The lines of a multi-line entry: a marker line `[k] t` followed by
its continuation lines. -/
def blockLines (b : Nat × List Char × List (List Char)) : List (List Char) :=
  markerLine b.1 b.2.1 :: b.2.2

/-- The final text the scanner produces for a multi-line entry: its
stripped non-blank pieces joined by single spaces. -/
def entryText (t0 : List Char) (conts : List (List Char)) : List Char :=
  joinWith (' ' :: []) ((pyStrip t0 :: conts.map pyStrip).filter fun l => !l.isEmpty)

/-! ### Lemmas about the string primitives -/

theorem lstrip_cons_of_space {c : Char} (l : List Char) (h : isPySpace c = true) :
    lstrip (c :: l) = lstrip l := by
  simp [lstrip, List.dropWhile_cons, h]

theorem lstrip_cons_of_not_space {c : Char} (l : List Char) (h : isPySpace c = false) :
    lstrip (c :: l) = c :: l := by
  simp [lstrip, List.dropWhile_cons, h]

theorem lstrip_idem (l : List Char) : lstrip (lstrip l) = lstrip l := by
  induction l with
  | nil => rfl
  | cons c l ih =>
    by_cases h : isPySpace c = true
    · rw [lstrip_cons_of_space l h]; exact ih
    · rw [lstrip_cons_of_not_space l (by simpa using h),
        lstrip_cons_of_not_space l (by simpa using h)]

theorem rstrip_cons_of_ne {l : List Char} (c : Char) (h : rstrip l ≠ []) :
    rstrip (c :: l) = c :: rstrip l := by
  simp only [rstrip, List.isEmpty_iff]
  rw [if_neg h]

theorem rstrip_cons_of_space_nil {c : Char} {l : List Char} (h : rstrip l = [])
    (hc : isPySpace c = true) : rstrip (c :: l) = [] := by
  simp only [rstrip, List.isEmpty_iff]
  rw [if_pos h, if_pos hc]

theorem rstrip_cons_of_not_space {c : Char} (l : List Char) (h : isPySpace c = false) :
    rstrip (c :: l) = c :: rstrip l := by
  by_cases h0 : rstrip l = []
  · simp only [rstrip, List.isEmpty_iff]
    rw [if_pos h0, if_neg (by simp [h]), h0]
  · exact rstrip_cons_of_ne c h0

theorem rstrip_of_all_space {l : List Char} (h : ∀ c ∈ l, isPySpace c = true) :
    rstrip l = [] := by
  induction l with
  | nil => rfl
  | cons c l ih =>
    exact rstrip_cons_of_space_nil (ih fun x hx => h x (List.mem_cons_of_mem c hx))
      (h c (List.mem_cons_self c l))

theorem rstrip_append_of_all_space {w : List Char} (l : List Char)
    (h : ∀ c ∈ w, isPySpace c = true) : rstrip (l ++ w) = rstrip l := by
  induction l with
  | nil => simpa using rstrip_of_all_space h
  | cons c l ih =>
    show rstrip (c :: (l ++ w)) = rstrip (c :: l)
    simp only [rstrip, ih]

theorem rstrip_idem (l : List Char) : rstrip (rstrip l) = rstrip l := by
  induction l with
  | nil => rfl
  | cons c l ih =>
    by_cases h0 : rstrip l = []
    · by_cases hc : isPySpace c = true
      · rw [rstrip_cons_of_space_nil h0 hc]; rfl
      · rw [rstrip_cons_of_not_space l (by simpa using hc), h0,
          rstrip_cons_of_not_space [] (by simpa using hc)]
        rfl
    · rw [rstrip_cons_of_ne c h0, rstrip_cons_of_ne c (by rw [ih]; exact h0), ih]

theorem rstrip_lstrip_comm (l : List Char) : rstrip (lstrip l) = lstrip (rstrip l) := by
  induction l with
  | nil => rfl
  | cons c l ih =>
    by_cases hc : isPySpace c = true
    · rw [lstrip_cons_of_space l hc]
      by_cases h0 : rstrip l = []
      · rw [rstrip_cons_of_space_nil h0 hc, ih, h0]
      · rw [rstrip_cons_of_ne c h0, lstrip_cons_of_space _ hc, ih]
    · rw [lstrip_cons_of_not_space l (by simpa using hc),
        rstrip_cons_of_not_space l (by simpa using hc),
        lstrip_cons_of_not_space _ (by simpa using hc)]

theorem pyStrip_idem (l : List Char) : pyStrip (pyStrip l) = pyStrip l := by
  show lstrip (rstrip (lstrip (rstrip l))) = lstrip (rstrip l)
  rw [rstrip_lstrip_comm, rstrip_idem, lstrip_idem]

theorem pyStrip_cons_of_space {c : Char} (l : List Char) (hc : isPySpace c = true) :
    pyStrip (c :: l) = pyStrip l := by
  show lstrip (rstrip (c :: l)) = lstrip (rstrip l)
  by_cases h0 : rstrip l = []
  · rw [rstrip_cons_of_space_nil h0 hc, h0]
  · rw [rstrip_cons_of_ne c h0, lstrip_cons_of_space _ hc]

theorem pyStrip_append_of_all_space {w : List Char} (l : List Char)
    (h : ∀ c ∈ w, isPySpace c = true) : pyStrip (l ++ w) = pyStrip l := by
  show lstrip (rstrip (l ++ w)) = lstrip (rstrip l)
  rw [rstrip_append_of_all_space l h]

theorem pyStrip_of_rstrip_eq_nil {l : List Char} (h : rstrip l = []) : pyStrip l = [] := by
  show lstrip (rstrip l) = []
  rw [h]; rfl

/-! ### Splitting lemmas -/

theorem pySplit_ne_nil (sep : Char) (l : List Char) : pySplit sep l ≠ [] := by
  cases l with
  | nil => simp [pySplit]
  | cons c rest =>
    by_cases h : c = sep
    · simp [pySplit, h]
    · simp only [pySplit, if_neg h]
      cases pySplit sep rest <;> simp

theorem pySplit_cons_sep (sep : Char) (l : List Char) :
    pySplit sep (sep :: l) = [] :: pySplit sep l := by
  simp [pySplit]

theorem pySplit_cons_of_ne {c sep : Char} (l : List Char) (h : c ≠ sep) :
    pySplit sep (c :: l) = (c :: (pySplit sep l).headI) :: (pySplit sep l).tail := by
  simp only [pySplit, if_neg h]
  rcases hsp : pySplit sep l with _ | ⟨hd, tl⟩
  · exact absurd hsp (pySplit_ne_nil sep l)
  · simp

theorem pySplit_no_sep {sep : Char} {l : List Char} (h : sep ∉ l) :
    pySplit sep l = [l] := by
  induction l with
  | nil => rfl
  | cons c rest ih =>
    have hc : c ≠ sep := fun he => h (he ▸ List.mem_cons_self c rest)
    rw [pySplit_cons_of_ne rest hc, ih fun hm => h (List.mem_cons_of_mem c hm)]
    rfl

theorem pySplit_append_sep_cons {sep : Char} {l : List Char} (y : List Char) (h : sep ∉ l) :
    pySplit sep (l ++ sep :: y) = l :: pySplit sep y := by
  induction l with
  | nil => simpa using pySplit_cons_sep sep y
  | cons c rest ih =>
    have hc : c ≠ sep := fun he => h (he ▸ List.mem_cons_self c rest)
    have ih' := ih fun hm => h (List.mem_cons_of_mem c hm)
    rw [List.cons_append, pySplit_cons_of_ne _ hc, ih']
    rfl

theorem pySplit_append_last_sep (sep : Char) (a : List Char) :
    pySplit sep (a ++ [sep]) = pySplit sep a ++ [[]] := by
  induction a with
  | nil => simp [pySplit]
  | cons c rest ih =>
    by_cases h : c = sep
    · subst h
      rw [List.cons_append, pySplit_cons_sep, pySplit_cons_sep, ih]
      rfl
    · rw [List.cons_append, pySplit_cons_of_ne _ h, pySplit_cons_of_ne _ h, ih]
      rcases hsp : pySplit sep rest with _ | ⟨hd, tl⟩
      · exact absurd hsp (pySplit_ne_nil sep rest)
      · simp

theorem pySplit_append_last_of_ne {c sep : Char} (a : List Char) (h : c ≠ sep) :
    pySplit sep (a ++ [c]) = appLast c (pySplit sep a) := by
  induction a with
  | nil =>
    rw [List.nil_append, pySplit_cons_of_ne _ h]
    rfl
  | cons x rest ih =>
    by_cases hx : x = sep
    · rw [hx, List.cons_append, pySplit_cons_sep, pySplit_cons_sep, ih]
      rcases hsp : pySplit sep rest with _ | ⟨hd, tl⟩
      · exact absurd hsp (pySplit_ne_nil sep rest)
      · rfl
    · rw [List.cons_append, pySplit_cons_of_ne _ hx, pySplit_cons_of_ne _ hx, ih]
      rcases hsp : pySplit sep rest with _ | ⟨hd, tl⟩
      · exact absurd hsp (pySplit_ne_nil sep rest)
      · cases tl <;> rfl

/-! ### Normalization lemmas: the scanner sees only the stripped
non-blank lines, and stripping the whole response first does not change
them -/

theorem normList_append (L M : List (List Char)) :
    normList (L ++ M) = normList L ++ normList M := by
  simp [normList, List.filter_append]

theorem normList_cons_of_nil {l : List Char} (L : List (List Char)) (h : pyStrip l = []) :
    normList (l :: L) = normList L := by
  simp [normList, h]

theorem normList_cons_of_ne {l : List Char} (L : List (List Char)) (h : pyStrip l ≠ []) :
    normList (l :: L) = pyStrip l :: normList L := by
  simp [normList, List.filter_cons, List.isEmpty_iff, h]

theorem normList_appLast {c : Char} (L : List (List Char)) (hc : isPySpace c = true) :
    normList (appLast c L) = normList L := by
  induction L with
  | nil =>
    have : pyStrip [c] = [] := by
      rw [show [c] = [] ++ [c] by rfl,
        pyStrip_append_of_all_space [] (by intro x hx; rw [List.mem_singleton] at hx; rwa [hx])]
      rfl
    simpa [appLast] using normList_cons_of_nil [] this
  | cons l ls ih =>
    cases ls with
    | nil =>
      show normList [l ++ [c]] = normList [l]
      have hps : pyStrip (l ++ [c]) = pyStrip l :=
        pyStrip_append_of_all_space l (by intro x hx; rw [List.mem_singleton] at hx; rwa [hx])
      by_cases h : pyStrip l = []
      · rw [normList_cons_of_nil [] (hps.trans h), normList_cons_of_nil [] h]
      · rw [normList_cons_of_ne [] (fun he => h ((hps.symm.trans he))),
          normList_cons_of_ne [] h, hps]
    | cons l2 ls2 =>
      show normList (l :: appLast c (l2 :: ls2)) = normList (l :: l2 :: ls2)
      by_cases h : pyStrip l = []
      · rw [normList_cons_of_nil _ h, normList_cons_of_nil _ h, ih]
      · rw [normList_cons_of_ne _ h, normList_cons_of_ne _ h, ih]

theorem normL_lstrip (s : List Char) : normL (lstrip s) = normL s := by
  induction s with
  | nil => rfl
  | cons c s ih =>
    by_cases hc : isPySpace c = true
    · rw [lstrip_cons_of_space s hc, ih]
      by_cases hn : c = '\n'
      · subst hn
        show normL s = normL ('\n' :: s)
        unfold normL
        rw [pySplit_cons_sep, @normList_cons_of_nil [] (pySplit '\n' s) rfl]
      · show normL s = normL (c :: s)
        unfold normL
        rw [pySplit_cons_of_ne s hn]
        rcases hsp : pySplit '\n' s with _ | ⟨hd, tl⟩
        · exact absurd hsp (pySplit_ne_nil '\n' s)
        · have hps : pyStrip (c :: hd) = pyStrip hd := pyStrip_cons_of_space hd hc
          simp only [List.headI, List.tail]
          by_cases h : pyStrip hd = []
          · rw [normList_cons_of_nil _ h, normList_cons_of_nil _ (hps.trans h)]
          · rw [normList_cons_of_ne _ h, normList_cons_of_ne _ (fun he => h (hps.symm.trans he)),
              hps]
    · rw [lstrip_cons_of_not_space s (by simpa using hc)]

theorem normL_rstrip (s : List Char) : normL (rstrip s) = normL s := by
  induction s using List.reverseRecOn with
  | nil => rfl
  | append_singleton a c ih =>
    by_cases hc : isPySpace c = true
    · rw [rstrip_append_of_all_space a
        (by intro x hx; rw [List.mem_singleton] at hx; rwa [hx]), ih]
      by_cases hn : c = '\n'
      · subst hn
        show normL a = normL (a ++ ['\n'])
        unfold normL
        rw [pySplit_append_last_sep, normList_append,
          show normList [[]] = [] from rfl, List.append_nil]
      · show normL a = normL (a ++ [c])
        unfold normL
        rw [pySplit_append_last_of_ne a hn, normList_appLast _ hc]
    · have : rstrip (a ++ [c]) = a ++ [c] := by
        clear ih
        induction a with
        | nil =>
          show rstrip [c] = [c]
          simp [rstrip, hc]
        | cons x a2 ih2 =>
          rw [List.cons_append, rstrip_cons_of_ne x (by rw [ih2]; simp)]
          rw [ih2]
      rw [this]

theorem normL_pyStrip (s : List Char) : normL (pyStrip s) = normL s := by
  show normL (lstrip (rstrip s)) = normL s
  rw [normL_lstrip, normL_rstrip]

theorem normList_mem {l : List Char} {L : List (List Char)} (h : l ∈ normList L) :
    pyStrip l = l ∧ l ≠ [] := by
  simp only [normList, List.mem_filter, List.mem_map] at h
  obtain ⟨⟨x, _, hx⟩, hne⟩ := h
  subst hx
  refine ⟨pyStrip_idem x, ?_⟩
  simpa [List.isEmpty_iff] using hne

/-! ### The scanner factors through the stripped non-blank lines -/

theorem scanLines_eq_scanCore (L : List (List Char)) :
    ∀ curIdx curText,
      MainCode.scanLines L curIdx curText = scanCore (normList L) curIdx curText := by
  induction L with
  | nil => intro curIdx curText; cases curIdx <;> rfl
  | cons line rest ih =>
    intro curIdx curText
    by_cases h : pyStrip line = []
    · rw [normList_cons_of_nil _ h]
      simp only [MainCode.scanLines, h, List.isEmpty_nil, if_true]
      exact ih curIdx curText
    · have hE : (pyStrip line).isEmpty = false := by
        rcases hh : pyStrip line with _ | _
        · exact absurd hh h
        · rfl
      rw [normList_cons_of_ne _ h]
      simp only [MainCode.scanLines, scanCore, hE, Bool.false_eq_true, if_false]
      rcases hm : parseMarker (pyStrip line) with _ | ⟨idx, txt⟩
      · exact ih curIdx (curText ++ ' ' :: pyStrip line)
      · cases curIdx with
        | none => exact ih (some idx) (pyStrip txt)
        | some i =>
          exact congrArg (fun z => (i, pyStrip curText) :: z) (ih (some idx) (pyStrip txt))

theorem scanLines_app_eq_main (L : List (List Char)) :
    ∀ curIdx curText,
      StreamlitApp.scanLines L curIdx curText = MainCode.scanLines L curIdx curText := by
  induction L with
  | nil => intro curIdx curText; cases curIdx <;> rfl
  | cons line rest ih =>
    intro curIdx curText
    simp only [StreamlitApp.scanLines, MainCode.scanLines]
    by_cases h : (pyStrip line).isEmpty
    · simp only [h, if_true]
      exact ih curIdx curText
    · simp only [eq_false_of_ne_true h, Bool.false_eq_true, if_false]
      rcases hm : parseMarker (pyStrip line) with _ | ⟨idx, txt⟩
      · exact ih curIdx (curText ++ ' ' :: pyStrip line)
      · cases curIdx with
        | none => exact ih (some idx) (pyStrip txt)
        | some i =>
          exact congrArg (fun z => (i, pyStrip curText) :: z) (ih (some idx) (pyStrip txt))

/-! ### Behavior of the core scanner -/

theorem scanCore_none_irrel (L : List (List Char)) :
    ∀ t t', scanCore L none t = scanCore L none t' := by
  induction L with
  | nil => intro t t'; rfl
  | cons l rest ih =>
    intro t t'
    simp only [scanCore]
    rcases hm : parseMarker l with _ | ⟨idx, txt⟩
    · exact ih (t ++ ' ' :: l) (t' ++ ' ' :: l)
    · rfl

theorem scanCore_nonmarker_skip {L : List (List Char)} (M : List (List Char))
    (h : ∀ l ∈ L, parseMarker l = none) :
    ∀ t, scanCore (L ++ M) none t = scanCore M none t := by
  induction L with
  | nil => intro t; rfl
  | cons l rest ih =>
    intro t
    have hl : parseMarker l = none := h l (List.mem_cons_self l rest)
    simp only [List.cons_append, scanCore, hl]
    exact (ih (fun x hx => h x (List.mem_cons_of_mem l hx)) (t ++ ' ' :: l)).trans
      (scanCore_none_irrel M (t ++ ' ' :: l) t)

theorem scanCore_all_nonmarker {L : List (List Char)}
    (h : ∀ l ∈ L, parseMarker l = none) (t : List Char) : scanCore L none t = [] := by
  have := scanCore_nonmarker_skip [] h t
  rwa [List.append_nil] at this

theorem scanCore_markers {es : List (Nat × List Char)} {L : List (List Char)}
    (h : List.Forall₂ (fun p l => ∃ u, parseMarker l = some (p.1, u) ∧ pyStrip u = pyStrip p.2)
      es L) :
    (∀ t, scanCore L none t = es.map fun p => (p.1, pyStrip p.2)) ∧
    (∀ i t, scanCore L (some i) t = (i, pyStrip t) :: es.map fun p => (p.1, pyStrip p.2)) := by
  induction h with
  | nil => exact ⟨fun _ => rfl, fun _ _ => rfl⟩
  | @cons p l es' L' hpl _ ih =>
    obtain ⟨u, hm, hu⟩ := hpl
    have hres : pyStrip (pyStrip u) = pyStrip p.2 := by rw [hu]; exact pyStrip_idem p.2
    constructor
    · intro t
      simp only [scanCore, hm]
      rw [ih.2 p.1 (pyStrip u), hres, List.map_cons]
    · intro i t
      simp only [scanCore, hm]
      rw [ih.2 p.1 (pyStrip u), hres, List.map_cons]

/-! ### Decimal rendering of ordinals -/

theorem digitChar_isDigit {n : Nat} (h : n < 10) : (digitChar n).isDigit = true := by
  interval_cases n <;> decide

theorem digitChar_toNat {n : Nat} (h : n < 10) : (digitChar n).toNat = 48 + n := by
  interval_cases n <;> decide

theorem not_space_of_isDigit {c : Char} (h : c.isDigit = true) : isPySpace c = false := by
  rcases hh : isPySpace c with _ | _
  · rfl
  · exfalso
    simp only [isPySpace, Bool.or_eq_true, decide_eq_true_eq] at hh
    rcases hh with ((((h' | h') | h') | h') | h') | h' <;> rw [h'] at h <;>
      exact absurd h (by decide)

theorem ne_of_isDigit {c : Char} (h : c.isDigit = true) : c ≠ ']' ∧ c ≠ '\n' := by
  constructor <;> intro he <;> rw [he] at h <;> exact absurd h (by decide)

theorem natDigitsAux_acc : ∀ (fuel n : Nat) (acc : List Char),
    natDigitsAux fuel n acc = natDigitsAux fuel n [] ++ acc := by
  intro fuel
  induction fuel with
  | zero => intro n acc; rfl
  | succ f ih =>
    intro n acc
    by_cases h : n < 10
    · simp [natDigitsAux, h]
    · simp only [natDigitsAux, if_neg h]
      rw [ih (n / 10) (digitChar (n % 10) :: acc), ih (n / 10) [digitChar (n % 10)]]
      simp

theorem natDigitsAux_eq_natDigits : ∀ (n fuel : Nat), n < fuel →
    natDigitsAux fuel n [] = natDigits n := by
  intro n
  induction n using Nat.strong_induction_on with
  | _ n ih =>
    intro fuel hf
    rcases fuel with _ | f
    · exact absurd hf (Nat.not_lt_zero n)
    · by_cases h : n < 10
      · simp [natDigits, natDigitsAux, h]
      · have h10 : 10 ≤ n := Nat.le_of_not_lt h
        have hdiv : n / 10 < n := Nat.div_lt_self (by omega) (by omega)
        have hlt1 : n / 10 < f := by omega
        have hlt2 : n / 10 < n := hdiv
        show natDigitsAux (f + 1) n [] = natDigitsAux (n + 1) n []
        simp only [natDigitsAux, if_neg h]
        rw [natDigitsAux_acc f (n / 10), natDigitsAux_acc n (n / 10),
          ih (n / 10) hdiv f hlt1, ih (n / 10) hdiv n (by omega)]

theorem natDigits_of_lt {n : Nat} (h : n < 10) : natDigits n = [digitChar n] := by
  simp [natDigits, natDigitsAux, h]

theorem natDigits_of_ge {n : Nat} (h : 10 ≤ n) :
    natDigits n = natDigits (n / 10) ++ [digitChar (n % 10)] := by
  have hdiv : n / 10 < n := Nat.div_lt_self (by omega) (by omega)
  show natDigitsAux (n + 1) n [] = _
  simp only [natDigitsAux, if_neg (Nat.not_lt_of_le h)]
  rw [natDigitsAux_acc n (n / 10), natDigitsAux_eq_natDigits (n / 10) n (by omega)]

theorem natDigits_all_digit : ∀ n, ∀ c ∈ natDigits n, c.isDigit = true := by
  intro n
  induction n using Nat.strong_induction_on with
  | _ n ih =>
    by_cases h : n < 10
    · rw [natDigits_of_lt h]
      intro c hc
      rw [List.mem_singleton] at hc
      rw [hc]
      exact digitChar_isDigit h
    · have h10 : 10 ≤ n := Nat.le_of_not_lt h
      rw [natDigits_of_ge h10]
      intro c hc
      rcases List.mem_append.mp hc with hc | hc
      · exact ih (n / 10) (Nat.div_lt_self (by omega) (by omega)) c hc
      · rw [List.mem_singleton] at hc
        rw [hc]
        exact digitChar_isDigit (Nat.mod_lt n (by omega))

theorem natDigits_ne_nil (n : Nat) : natDigits n ≠ [] := by
  by_cases h : n < 10
  · rw [natDigits_of_lt h]; simp
  · rw [natDigits_of_ge (Nat.le_of_not_lt h)]; simp

theorem digitsToNat_append_digit (a : List Char) (c : Char) :
    digitsToNat (a ++ [c]) = 10 * digitsToNat a + (c.toNat - 48) := by
  simp only [digitsToNat, List.foldl_append, List.foldl_cons, List.foldl_nil]
  omega

theorem digitsToNat_natDigits : ∀ n, digitsToNat (natDigits n) = n := by
  intro n
  induction n using Nat.strong_induction_on with
  | _ n ih =>
    by_cases h : n < 10
    · rw [natDigits_of_lt h]
      show digitsToNat ([] ++ [digitChar n]) = n
      rw [digitsToNat_append_digit, digitChar_toNat h]
      simp [digitsToNat]
    · have h10 : 10 ≤ n := Nat.le_of_not_lt h
      rw [natDigits_of_ge h10, digitsToNat_append_digit,
        ih (n / 10) (Nat.div_lt_self (by omega) (by omega)),
        digitChar_toNat (Nat.mod_lt n (by omega))]
      omega

/-! ### Parsing a marker line -/

theorem leadingDigits_digits_rbracket {d : List Char} (x : List Char)
    (hd : ∀ c ∈ d, c.isDigit = true) :
    leadingDigits (d ++ ']' :: x) = (d, ']' :: x) := by
  induction d with
  | nil =>
    show leadingDigits (']' :: x) = ([], ']' :: x)
    simp [leadingDigits]
  | cons c rest ih =>
    have hc : c.isDigit = true := hd c (List.mem_cons_self c rest)
    have ih' := ih fun y hy => hd y (List.mem_cons_of_mem c hy)
    simp only [List.cons_append, leadingDigits, hc, if_true, List.append_eq, ih']

theorem parseMarker_bracket_digits (k : Nat) (x : List Char) :
    parseMarker ('[' :: natDigits k ++ ']' :: x) = some (k, x) := by
  have hstep : parseMarker ('[' :: (natDigits k ++ ']' :: x)) =
      (if (leadingDigits (natDigits k ++ ']' :: x)).1.isEmpty = true then none
       else
         match (leadingDigits (natDigits k ++ ']' :: x)).2 with
         | ']' :: text => some (digitsToNat (leadingDigits (natDigits k ++ ']' :: x)).1, text)
         | _ => none) := rfl
  rw [List.cons_append, hstep, leadingDigits_digits_rbracket x (natDigits_all_digit k)]
  rw [if_neg (by simpa [List.isEmpty_iff] using natDigits_ne_nil k)]
  rw [digitsToNat_natDigits]
  rfl

theorem rstrip_append_of_ne_nil {y : List Char} (a : List Char) (h : rstrip y ≠ []) :
    rstrip (a ++ y) = a ++ rstrip y := by
  induction a with
  | nil => rfl
  | cons c a2 ih =>
    rw [List.cons_append, rstrip_cons_of_ne c (by rw [ih]; simp [h]), ih]
    rfl

theorem pyStrip_markerLine (k : Nat) (t : List Char) :
    pyStrip (markerLine k t) = '[' :: natDigits k ++ ']' :: rstrip (' ' :: t) := by
  have h1 : rstrip (']' :: ' ' :: t) = ']' :: rstrip (' ' :: t) :=
    rstrip_cons_of_not_space _ (by decide)
  have h2 : rstrip (natDigits k ++ ']' :: ' ' :: t) = natDigits k ++ ']' :: rstrip (' ' :: t) := by
    rw [rstrip_append_of_ne_nil (natDigits k) (by rw [h1]; simp), h1]
  show lstrip (rstrip ('[' :: (natDigits k ++ ']' :: ' ' :: t))) = _
  rw [rstrip_cons_of_ne '[' (by rw [h2]; simp), h2,
    lstrip_cons_of_not_space _ (by decide), List.cons_append]

theorem parseMarker_pyStrip_markerLine (k : Nat) (t : List Char) :
    parseMarker (pyStrip (markerLine k t)) = some (k, rstrip (' ' :: t)) := by
  rw [pyStrip_markerLine, parseMarker_bracket_digits]

theorem pyStrip_markerLine_ne_nil (k : Nat) (t : List Char) :
    pyStrip (markerLine k t) ≠ [] := by
  rw [pyStrip_markerLine]
  simp

theorem pyStrip_rstrip_space_cons (t : List Char) :
    pyStrip (rstrip (' ' :: t)) = pyStrip t := by
  by_cases h0 : rstrip t = []
  · rw [rstrip_cons_of_space_nil h0 (by decide)]
    rw [pyStrip_of_rstrip_eq_nil h0]
    rfl
  · rw [rstrip_cons_of_ne ' ' h0, pyStrip_cons_of_space _ (by decide)]
    show lstrip (rstrip (rstrip t)) = lstrip (rstrip t)
    rw [rstrip_idem]

theorem markerLine_no_newline {t : List Char} (k : Nat) (h : '\n' ∉ t) :
    '\n' ∉ markerLine k t := by
  intro hm
  simp only [markerLine, List.cons_append, List.mem_cons, List.mem_append] at hm
  rcases hm with h1 | hm
  · exact absurd h1 (by decide)
  rcases hm with hm | hm
  · exact absurd (natDigits_all_digit k '\n' hm) (by decide)
  rcases hm with h1 | hm
  · exact absurd h1 (by decide)
  rcases hm with h1 | hm
  · exact absurd h1 (by decide)
  · exact h hm

theorem forall₂_markerLines (es : List (Nat × List Char)) :
    List.Forall₂ (fun p l => ∃ u, parseMarker l = some (p.1, u) ∧ pyStrip u = pyStrip p.2)
      es (es.map fun p => pyStrip (markerLine p.1 p.2)) := by
  induction es with
  | nil => exact List.Forall₂.nil
  | cons p es ih =>
    refine List.Forall₂.cons ⟨rstrip (' ' :: p.2), ?_, ?_⟩ ih
    · exact parseMarker_pyStrip_markerLine p.1 p.2
    · exact pyStrip_rstrip_space_cons p.2

theorem normList_markerLines (es : List (Nat × List Char)) :
    normList (es.map fun p => markerLine p.1 p.2) =
      es.map fun p => pyStrip (markerLine p.1 p.2) := by
  induction es with
  | nil => rfl
  | cons p es ih =>
    rw [List.map_cons, normList_cons_of_ne _ (pyStrip_markerLine_ne_nil p.1 p.2),
      List.map_cons, ih]

theorem pySplit_joinWith {L : List (List Char)} (hne : L ≠ [])
    (h : ∀ l ∈ L, '\n' ∉ l) : pySplit '\n' (joinWith ['\n'] L) = L := by
  induction L with
  | nil => exact absurd rfl hne
  | cons l ls ih =>
    cases ls with
    | nil => exact pySplit_no_sep (h l (List.mem_cons_self l []))
    | cons l2 ls2 =>
      show pySplit '\n' (l ++ ['\n'] ++ joinWith ['\n'] (l2 :: ls2)) = l :: l2 :: ls2
      rw [List.append_assoc, List.singleton_append,
        pySplit_append_sep_cons _ (h l (List.mem_cons_self l _)),
        ih (by simp) fun x hx => h x (List.mem_cons_of_mem l hx)]

/-! ### Parsing a response consisting only of single-line marker entries -/

theorem parseTranslations_markerLines (es : List (Nat × List Char))
    (h : ∀ p ∈ es, '\n' ∉ p.2) :
    MainCode.parseTranslations (joinWith ['\n'] (es.map fun p => markerLine p.1 p.2)) =
      es.map fun p => (p.1, pyStrip p.2) := by
  rcases es with _ | ⟨p, es'⟩
  · rfl
  · have hll : ∀ l ∈ (p :: es').map (fun q => markerLine q.1 q.2), '\n' ∉ l := by
      intro l hl
      rw [List.mem_map] at hl
      obtain ⟨q, hq, rfl⟩ := hl
      exact markerLine_no_newline q.1 (h q hq)
    show MainCode.scanLines
        (pySplit '\n' (pyStrip (joinWith ['\n'] ((p :: es').map fun q => markerLine q.1 q.2))))
        none [] = _
    rw [scanLines_eq_scanCore]
    show scanCore (normL (pyStrip (joinWith ['\n'] ((p :: es').map fun q => markerLine q.1 q.2))))
        none [] = _
    rw [normL_pyStrip]
    show scanCore
        (normList (pySplit '\n' (joinWith ['\n'] ((p :: es').map fun q => markerLine q.1 q.2))))
        none [] = _
    rw [pySplit_joinWith (by simp) hll, normList_markerLines]
    exact (scanCore_markers (forall₂_markerLines (p :: es'))).1 []

/-! ### Sorting lemmas -/

theorem sorted_lt_of_sorted_le_nodup {l : List (Nat × List Char)}
    (hs : List.Sorted ordinalLE l) (hnd : (l.map Prod.fst).Nodup) :
    List.Sorted ordinalLT l := by
  have hne : l.Pairwise fun a b => a.1 ≠ b.1 := (List.pairwise_map.mp hnd)
  exact (hs.and hne).imp fun hab => Nat.lt_of_le_of_ne hab.1 hab.2

theorem insertionSort_eq_of_perm_of_nodup {l₁ l₂ : List (Nat × List Char)}
    (hp : l₁.Perm l₂) (hnd : (l₁.map Prod.fst).Nodup) :
    List.insertionSort ordinalLE l₁ = List.insertionSort ordinalLE l₂ := by
  have hperm : (List.insertionSort ordinalLE l₁).Perm (List.insertionSort ordinalLE l₂) :=
    ((List.perm_insertionSort ordinalLE l₁).trans hp).trans
      (List.perm_insertionSort ordinalLE l₂).symm
  have hnd₁ : ((List.insertionSort ordinalLE l₁).map Prod.fst).Nodup :=
    (((List.perm_insertionSort ordinalLE l₁).map Prod.fst).nodup_iff).mpr hnd
  have hnd₂ : ((List.insertionSort ordinalLE l₂).map Prod.fst).Nodup :=
    ((hperm.map Prod.fst).nodup_iff).mp hnd₁
  exact List.eq_of_perm_of_sorted hperm
    (sorted_lt_of_sorted_le_nodup (List.sorted_insertionSort ordinalLE l₁) hnd₁)
    (sorted_lt_of_sorted_le_nodup (List.sorted_insertionSort ordinalLE l₂) hnd₂)

/-! ### Length of the assembled output -/

theorem assembleOutput_length (inputs : List (List Char)) (sorted : List (Nat × List Char)) :
    (MainCode.assembleOutput inputs sorted).length =
      max inputs.length
        (sorted.filter fun p => decide (1 ≤ p.1 ∧ p.1 ≤ inputs.length)).length := by
  simp only [MainCode.assembleOutput]
  split
  next h =>
    simp only [List.length_append, List.length_map, List.length_range'] at h ⊢
    omega
  next h =>
    simp only [List.length_map] at h ⊢
    omega

/-! ### The in-range filter commutes with the stable sort -/

theorem orderedInsert_eq_cons {a : Nat × List Char} {m : List (Nat × List Char)}
    (h : ∀ x ∈ m, ordinalLE a x) : List.orderedInsert ordinalLE a m = a :: m := by
  cases m with
  | nil => rfl
  | cons b m => exact List.orderedInsert_of_le ordinalLE m (h b (List.mem_cons_self b m))

theorem filter_orderedInsert (p : Nat × List Char → Bool) (a : Nat × List Char) :
    ∀ l : List (Nat × List Char), List.Sorted ordinalLE l →
      (List.orderedInsert ordinalLE a l).filter p =
        if p a then List.orderedInsert ordinalLE a (l.filter p) else l.filter p := by
  intro l
  induction l with
  | nil =>
    intro _
    simp only [List.orderedInsert, List.filter_cons, List.filter_nil]
  | cons b l ih =>
    intro hs
    have hsl : List.Sorted ordinalLE l := (List.sorted_cons.mp hs).2
    have hbl : ∀ x ∈ l, ordinalLE b x := (List.sorted_cons.mp hs).1
    by_cases hab : ordinalLE a b
    · rw [List.orderedInsert_of_le ordinalLE l hab]
      by_cases hpa : p a = true
      · rw [if_pos hpa]
        rw [List.filter_cons_of_pos hpa]
        have hins : List.orderedInsert ordinalLE a ((b :: l).filter p) = a :: (b :: l).filter p := by
          apply orderedInsert_eq_cons
          intro x hx
          rcases List.mem_cons.mp (List.mem_of_mem_filter hx) with hx' | hx'
          · rw [hx']; exact hab
          · exact Trans.trans hab (hbl x hx')
        rw [hins]
      · have hpa' : p a = false := by
          rcases hh : p a with _ | _
          · rfl
          · exact absurd hh hpa
        rw [if_neg (by simp [hpa']), List.filter_cons_of_neg (by simp [hpa'])]
    · have hstep : List.orderedInsert ordinalLE a (b :: l) = b :: List.orderedInsert ordinalLE a l := by
        simp only [List.orderedInsert, if_neg hab]
      rw [hstep]
      by_cases hpb : p b = true
      · rw [List.filter_cons_of_pos hpb, List.filter_cons_of_pos hpb, ih hsl]
        by_cases hpa : p a = true
        · rw [if_pos hpa, if_pos hpa]
          simp only [List.orderedInsert, if_neg hab]
        · rw [if_neg hpa, if_neg hpa]
      · rw [List.filter_cons_of_neg (by simpa using hpb), List.filter_cons_of_neg (by simpa using hpb),
          ih hsl]

theorem filter_insertionSort (p : Nat × List Char → Bool) :
    ∀ l : List (Nat × List Char),
      (List.insertionSort ordinalLE l).filter p = List.insertionSort ordinalLE (l.filter p) := by
  intro l
  induction l with
  | nil => rfl
  | cons a l ih =>
    show (List.orderedInsert ordinalLE a (List.insertionSort ordinalLE l)).filter p = _
    rw [filter_orderedInsert p a _ (List.sorted_insertionSort ordinalLE l), ih]
    by_cases hpa : p a = true
    · rw [if_pos hpa, List.filter_cons_of_pos hpa]
      rfl
    · rw [if_neg hpa, List.filter_cons_of_neg (by simpa using hpa)]

/-! ### Responses without any marker line parse to the empty entry list -/

theorem parseTranslations_no_marker {r : List Char}
    (h : ∀ l ∈ pySplit '\n' r, parseMarker (pyStrip l) = none) :
    MainCode.parseTranslations r = [] := by
  show MainCode.scanLines (pySplit '\n' (pyStrip r)) none [] = []
  rw [scanLines_eq_scanCore]
  show scanCore (normL (pyStrip r)) none [] = []
  rw [normL_pyStrip]
  apply scanCore_all_nonmarker
  intro l hl
  simp only [normL, normList, List.mem_filter, List.mem_map] at hl
  obtain ⟨⟨x, hx, rfl⟩, _⟩ := hl
  exact h x hx

/-! ### Padding positions -/

theorem range'_getD_map (g : List Char → List Char) (L : List (List Char)) :
    ∀ (n j : Nat), j + n = L.length →
      (List.range' j n).map (fun i => g (L.getD i [])) = (L.drop j).map g := by
  intro n
  induction n with
  | zero =>
    intro j hj
    rw [List.drop_eq_nil_of_le (by omega)]
    rfl
  | succ n ih =>
    intro j hj
    have hjlt : j < L.length := by omega
    rw [List.range'_succ j n 1, List.map_cons, ih (j + 1) (by omega),
      List.drop_eq_getElem_cons hjlt, List.map_cons,
      List.getD_eq_getElem L [] hjlt]

/-! ### Claim theorems -/

/-- C1 (corrected).  The reassembled output length is not always equal to
the input length: it equals `max` of the input length and the number of
in-range parsed entries.  Duplicate in-range ordinals can push it above
the input length; placeholder padding only repairs a shortfall. -/
theorem C1_length_eq_max (inputs : List (List Char)) (responseText : List Char) :
    (MainCode.process_entire_json inputs responseText).length =
      max inputs.length
        ((MainCode.sortedTranslations responseText).filter
          fun p => decide (1 ≤ p.1 ∧ p.1 ≤ inputs.length)).length :=
  assembleOutput_length inputs (MainCode.sortedTranslations responseText)

/-- C1 (counterexample).  For the one-item input `["x"]` and the response
`"[1] a\n[1] b"`, both entries carry the in-range ordinal 1 and the
output has length 2, not 1. -/
theorem C1_counterexample :
    (MainCode.process_entire_json [['x']] ("[1] a\n[1] b".data)).length ≠ 1 := by
  decide

/-- C5 (confirmed).  If no line of the response matches the ordinal-marker
pattern, parsing yields the empty entry list and the output is the full
placeholder-filled list, one placeholder per input position. -/
theorem C5_no_marker_all_placeholders (inputs : List (List Char)) (r : List Char)
    (h : ∀ l ∈ pySplit '\n' r, parseMarker (pyStrip l) = none) :
    MainCode.process_entire_json inputs r = inputs.map MainCode.placeholderFor := by
  have hp : MainCode.parseTranslations r = [] := parseTranslations_no_marker h
  show MainCode.assembleOutput inputs (MainCode.sortedTranslations r) = _
  rw [show MainCode.sortedTranslations r =
      List.insertionSort ordinalLE (MainCode.parseTranslations r) from rfl, hp]
  rcases inputs with _ | ⟨a, inputs'⟩
  · rfl
  · simp only [MainCode.assembleOutput, List.insertionSort, List.filter_nil, List.map_nil,
      List.length_nil, List.nil_append]
    rw [if_pos (by simp), Nat.sub_zero]
    have := range'_getD_map MainCode.placeholderFor (a :: inputs') (a :: inputs').length 0
      (by omega)
    rwa [List.drop_zero] at this

/-- C5 (witness). -/
theorem C5_witness :
    MainCode.process_entire_json [['a'], ['b']] ("hello there\n\nsome prose".data) =
      [['a'], ['b']].map MainCode.placeholderFor :=
  C5_no_marker_all_placeholders [['a'], ['b']] ("hello there\n\nsome prose".data) (by decide)

/-- C7 (corrected).  When the parsed-entry count differs from the input
count the warning condition holds and processing still completes, but the
output length is only guaranteed to be at least the input length (it
exceeds it when duplicate in-range ordinals are parsed), not exactly
equal to it. -/
theorem C7_warning_and_completion (inputs : List (List Char)) (r : List Char)
    (h : (MainCode.parseTranslations r).length ≠ inputs.length) :
    MainCode.printsWarning inputs r = true ∧
      inputs.length ≤ (MainCode.process_entire_json inputs r).length := by
  constructor
  · simp [MainCode.printsWarning, h]
  · rw [show MainCode.process_entire_json inputs r =
        MainCode.assembleOutput inputs (MainCode.sortedTranslations r) from rfl,
      assembleOutput_length]
    exact Nat.le_max_left _ _

/-- C7 (witness). -/
theorem C7_witness :
    MainCode.printsWarning [['a'], ['b']] ("[1] x".data) = true ∧
      ([['a'], ['b']] : List (List Char)).length ≤
        (MainCode.process_entire_json [['a'], ['b']] ("[1] x".data)).length :=
  C7_warning_and_completion [['a'], ['b']] ("[1] x".data) (by decide)

/-- C7 (counterexample).  With input `["y"]` and response `"[1] c\n[1] d"`
the parsed count (2) differs from the input count (1), the warning fires,
yet the returned output has length 2, not the claimed length 1. -/
theorem C7_counterexample :
    (MainCode.parseTranslations ("[1] c\n[1] d".data)).length ≠ 1 ∧
      (MainCode.process_entire_json [['y']] ("[1] c\n[1] d".data)).length ≠ 1 := by
  constructor
  · decide
  · decide

/-- C9 (confirmed).  The batch CLI parser/reassembler
(`process_entire_json` in main_code.py) and the interactive one
(`process_json` in streamlit_app.py) are extensionally equal. -/
theorem C9_two_variants_equal (inputs : List (List Char)) (r : List Char) :
    StreamlitApp.process_json inputs r = MainCode.process_entire_json inputs r := by
  show StreamlitApp.assembleOutput inputs
      (List.insertionSort ordinalLE (StreamlitApp.scanLines (pySplit '\n' (pyStrip r)) none []))
      = _
  rw [scanLines_app_eq_main]
  rfl

/-- C10 (confirmed).  Entries with out-of-range ordinals never contribute
an output item: deleting them from the parsed list before sorting and
reassembly leaves the output unchanged. -/
theorem C10_out_of_range_never_contributes (inputs : List (List Char))
    (trs : List (Nat × List Char)) :
    MainCode.assembleOutput inputs
        (List.insertionSort ordinalLE
          (trs.filter fun p => decide (1 ≤ p.1 ∧ p.1 ≤ inputs.length))) =
      MainCode.assembleOutput inputs (List.insertionSort ordinalLE trs) := by
  simp only [MainCode.assembleOutput]
  rw [filter_insertionSort, filter_insertionSort, List.filter_filter]
  simp only [Bool.and_self]

/-- Parsing the ascending well-formed response `[1] t1 .. [N] tN`. -/
theorem parseTranslations_ascending (inputs : List (List Char)) (t : Nat → List Char)
    (hnl : ∀ k, 1 ≤ k → k ≤ inputs.length → '\n' ∉ t k) :
    MainCode.parseTranslations
        (joinWith ['\n'] ((List.range' 1 inputs.length).map fun k => markerLine k (t k))) =
      (List.range' 1 inputs.length).map fun k => (k, pyStrip (t k)) := by
  have h := parseTranslations_markerLines ((List.range' 1 inputs.length).map fun k => (k, t k))
    (by
      intro p hp
      rw [List.mem_map] at hp
      obtain ⟨k, hk, rfl⟩ := hp
      rw [List.mem_range'] at hk
      exact hnl k (by omega) (by omega))
  rw [List.map_map, List.map_map] at h
  exact h

/-- The ascending parsed list is already sorted. -/
theorem sorted_parsed_ascending (N : Nat) (t : Nat → List Char) :
    List.Sorted ordinalLE ((List.range' 1 N).map fun k => (k, pyStrip (t k))) :=
  (List.pairwise_lt_range' 1 N).map (fun k => (k, pyStrip (t k)))
    (fun _ _ hab => Nat.le_of_lt hab)

/-- Assembling the full in-range entry list `[(1, s 1), .., (N, s N)]`
keeps every entry and pads nothing. -/
theorem assembleOutput_full (inputs : List (List Char)) (s : Nat → List Char) :
    MainCode.assembleOutput inputs
        ((List.range' 1 inputs.length).map fun k => (k, s k)) =
      (List.range' 1 inputs.length).map fun k => s k := by
  have hfil : ((List.range' 1 inputs.length).map fun k => (k, s k)).filter
      (fun p => decide (1 ≤ p.1 ∧ p.1 ≤ inputs.length)) =
      (List.range' 1 inputs.length).map fun k => (k, s k) := by
    apply List.filter_eq_self.mpr
    intro p hp
    rw [List.mem_map] at hp
    obtain ⟨k, hk, rfl⟩ := hp
    rw [List.mem_range'] at hk
    exact decide_eq_true (by omega)
  simp only [MainCode.assembleOutput, hfil, List.map_map, List.length_map, List.length_range']
  rw [if_neg (Nat.lt_irrefl inputs.length)]
  rfl

/-- C2 (confirmed).  For a response consisting exactly of the lines
`[1] t1 .. [N] tN` in ascending order (each entry on one line), the
output has length `N` and position `i` (1-based) carries `t i` trimmed. -/
theorem C2_well_formed_response (inputs : List (List Char)) (t : Nat → List Char)
    (hnl : ∀ k, 1 ≤ k → k ≤ inputs.length → '\n' ∉ t k) :
    (MainCode.process_entire_json inputs
        (joinWith ['\n'] ((List.range' 1 inputs.length).map fun k => markerLine k (t k)))).length
      = inputs.length ∧
    ∀ i, 1 ≤ i → i ≤ inputs.length →
      (MainCode.process_entire_json inputs
        (joinWith ['\n'] ((List.range' 1 inputs.length).map fun k => markerLine k (t k))))[i - 1]?
      = some (pyStrip (t i)) := by
  have E : MainCode.process_entire_json inputs
      (joinWith ['\n'] ((List.range' 1 inputs.length).map fun k => markerLine k (t k))) =
      (List.range' 1 inputs.length).map fun k => pyStrip (t k) := by
    show MainCode.assembleOutput inputs
        (List.insertionSort ordinalLE (MainCode.parseTranslations _)) = _
    rw [parseTranslations_ascending inputs t hnl,
      List.Sorted.insertionSort_eq (sorted_parsed_ascending inputs.length t),
      assembleOutput_full inputs fun k => pyStrip (t k)]
  constructor
  · rw [E]
    simp
  · intro i h1 h2
    rw [E, List.getElem?_map, List.getElem?_range' 1 1 (by omega)]
    have : 1 + 1 * (i - 1) = i := by omega
    rw [this]
    rfl

/-- C2 (witness). -/
theorem C2_witness :
    (MainCode.process_entire_json [['a'], ['b']]
        (joinWith ['\n'] ((List.range' 1 ([['a'], ['b']] : List (List Char)).length).map
          fun k => markerLine k (if k = 1 then ['o'] else ['w', 'o'])))).length
      = ([['a'], ['b']] : List (List Char)).length ∧
    ∀ i, 1 ≤ i → i ≤ ([['a'], ['b']] : List (List Char)).length →
      (MainCode.process_entire_json [['a'], ['b']]
        (joinWith ['\n'] ((List.range' 1 ([['a'], ['b']] : List (List Char)).length).map
          fun k => markerLine k (if k = 1 then ['o'] else ['w', 'o']))))[i - 1]?
      = some (pyStrip (if i = 1 then ['o'] else ['w', 'o'])) :=
  C2_well_formed_response [['a'], ['b']] (fun k => if k = 1 then ['o'] else ['w', 'o'])
    (by
      intro k _ _
      by_cases h : k = 1 <;> simp [h])

/-- C3 (confirmed).  Permuting the `N` distinct single-line entries in the
response leaves the output unchanged: the parser re-sorts by ordinal. -/
theorem C3_order_invariance (inputs : List (List Char)) (t : Nat → List Char) (σ : List Nat)
    (hperm : σ.Perm (List.range' 1 inputs.length))
    (hnl : ∀ k ∈ σ, '\n' ∉ t k) :
    MainCode.process_entire_json inputs
        (joinWith ['\n'] (σ.map fun k => markerLine k (t k))) =
      MainCode.process_entire_json inputs
        (joinWith ['\n'] ((List.range' 1 inputs.length).map fun k => markerLine k (t k))) := by
  have hnl' : ∀ k, 1 ≤ k → k ≤ inputs.length → '\n' ∉ t k := by
    intro k hk1 hk2
    exact hnl k (hperm.mem_iff.mpr (by rw [List.mem_range'_1]; omega))
  have hL1 : MainCode.parseTranslations (joinWith ['\n'] (σ.map fun k => markerLine k (t k))) =
      σ.map fun k => (k, pyStrip (t k)) := by
    have h := parseTranslations_markerLines (σ.map fun k => (k, t k))
      (by
        intro p hp
        rw [List.mem_map] at hp
        obtain ⟨k, hk, rfl⟩ := hp
        exact hnl k hk)
    rw [List.map_map, List.map_map] at h
    exact h
  have hL2 := parseTranslations_ascending inputs t hnl'
  have hnd : ((σ.map fun k => (k, pyStrip (t k))).map Prod.fst).Nodup := by
    rw [List.map_map]
    have : (Prod.fst ∘ fun k => ((k, pyStrip (t k)) : Nat × List Char)) = id := rfl
    rw [this, List.map_id]
    exact (hperm.nodup_iff).mpr (List.nodup_range' 1 inputs.length)
  have hsort : List.insertionSort ordinalLE (σ.map fun k => (k, pyStrip (t k))) =
      List.insertionSort ordinalLE ((List.range' 1 inputs.length).map fun k => (k, pyStrip (t k))) :=
    insertionSort_eq_of_perm_of_nodup (hperm.map fun k => (k, pyStrip (t k))) hnd
  show MainCode.assembleOutput inputs (List.insertionSort ordinalLE (MainCode.parseTranslations _))
      = MainCode.assembleOutput inputs (List.insertionSort ordinalLE (MainCode.parseTranslations _))
  rw [hL1, hL2, hsort]

/-- C3 (witness). -/
theorem C3_witness :
    MainCode.process_entire_json [['a'], ['b']]
        (joinWith ['\n'] ([2, 1].map fun k => markerLine k (if k = 1 then ['o'] else ['w']))) =
      MainCode.process_entire_json [['a'], ['b']]
        (joinWith ['\n'] ((List.range' 1 ([['a'], ['b']] : List (List Char)).length).map
          fun k => markerLine k (if k = 1 then ['o'] else ['w']))) :=
  C3_order_invariance [['a'], ['b']] (fun k => if k = 1 then ['o'] else ['w']) [2, 1]
    (by decide)
    (by
      intro k _
      by_cases h : k = 1 <;> simp [h])

/-- C4 (corrected, general form).  For a three-item input and a response
holding only entries `[1]` and `[3]`, the code packs the two parsed texts
into output positions 1 and 2 and pads position 3 with a placeholder for
the *third* input text: the `[3]` entry is misaligned to position 2
rather than position 3, and the placeholder references input position 3
rather than position 2. -/
theorem C4_amended (a b c t1 t3 : List Char) (h1 : '\n' ∉ t1) (h3 : '\n' ∉ t3) :
    MainCode.process_entire_json [a, b, c]
        (joinWith ['\n'] [markerLine 1 t1, markerLine 3 t3]) =
      [pyStrip t1, pyStrip t3, MainCode.placeholderFor c] := by
  have hp : MainCode.parseTranslations (joinWith ['\n'] [markerLine 1 t1, markerLine 3 t3]) =
      [(1, pyStrip t1), (3, pyStrip t3)] := by
    exact parseTranslations_markerLines [(1, t1), (3, t3)]
      (by
        intro p hp
        rcases List.mem_cons.mp hp with h | h
        · rw [h]; exact h1
        · rcases List.mem_cons.mp h with h' | h'
          · rw [h']; exact h3
          · exact absurd h' (List.not_mem_nil p))
  show MainCode.assembleOutput [a, b, c]
      (List.insertionSort ordinalLE (MainCode.parseTranslations _)) = _
  rw [hp]
  rfl

/-- C4 (witness). -/
theorem C4_witness :
    MainCode.process_entire_json [['a'], ['b'], ['c']]
        (joinWith ['\n'] [markerLine 1 ['x'], markerLine 3 ['z']]) =
      [pyStrip ['x'], pyStrip ['z'], MainCode.placeholderFor ['c']] :=
  C4_amended ['a'] ['b'] ['c'] ['x'] ['z'] (by decide) (by decide)

/-- C4 (counterexample).  Output position 2 (index 1) carries the text of
entry `[3]`, not a placeholder referencing input position 2 as the claim
states. -/
theorem C4_counterexample :
    (MainCode.process_entire_json [['a'], ['b'], ['c']] ("[1] x\n[3] z".data))[1]? ≠
      some (MainCode.placeholderFor ['b']) := by
  decide

/-! ### Decomposition of joined item lists (prompt builder) -/

theorem joinWith_mem_decomp (sep : List Char) :
    ∀ (L : List (List Char)) (x : List Char), x ∈ L →
      ∃ u v, joinWith sep L = u ++ x ++ v := by
  intro L
  induction L with
  | nil => intro x hx; exact absurd hx (List.not_mem_nil x)
  | cons l ls ih =>
    intro x hx
    rcases List.mem_cons.mp hx with h | h
    · subst h
      cases ls with
      | nil => exact ⟨[], [], by simp [joinWith]⟩
      | cons l2 ls2 =>
        refine ⟨[], sep ++ joinWith sep (l2 :: ls2), ?_⟩
        show joinWith sep (x :: l2 :: ls2) = [] ++ x ++ (sep ++ joinWith sep (l2 :: ls2))
        simp [joinWith]
    · obtain ⟨u, v, huv⟩ := ih x h
      cases ls with
      | nil => exact absurd h (List.not_mem_nil x)
      | cons l2 ls2 =>
        refine ⟨l ++ sep ++ u, v, ?_⟩
        show joinWith sep (l :: l2 :: ls2) = (l ++ sep ++ u) ++ x ++ v
        show l ++ sep ++ joinWith sep (l2 :: ls2) = _
        rw [huv]
        simp

theorem joinWith_adjacent_decomp (sep : List Char) :
    ∀ (L : List (List Char)) (i : Nat) (x y : List Char),
      L[i]? = some x → L[i + 1]? = some y →
      ∃ u v, joinWith sep L = u ++ (x ++ sep ++ y) ++ v := by
  intro L
  induction L with
  | nil => intro i x y hx _; simp at hx
  | cons l ls ih =>
    intro i x y hx hy
    cases i with
    | zero =>
      simp only [List.getElem?_cons_zero, Option.some_inj] at hx
      subst hx
      rw [show (0 : Nat) + 1 = 1 from rfl] at hy
      cases ls with
      | nil => simp at hy
      | cons l2 ls2 =>
        simp only [List.getElem?_cons_succ, List.getElem?_cons_zero, Option.some_inj] at hy
        subst hy
        cases ls2 with
        | nil => exact ⟨[], [], by simp [joinWith]⟩
        | cons l3 ls3 =>
          refine ⟨[], sep ++ joinWith sep (l3 :: ls3), ?_⟩
          show l ++ sep ++ joinWith sep (l2 :: l3 :: ls3) = _
          show l ++ sep ++ (l2 ++ sep ++ joinWith sep (l3 :: ls3)) = _
          simp
    | succ i =>
      simp only [List.getElem?_cons_succ] at hx hy
      obtain ⟨u, v, huv⟩ := ih i x y hx hy
      cases ls with
      | nil => simp at hx
      | cons l2 ls2 =>
        refine ⟨l ++ sep ++ u, v, ?_⟩
        show l ++ sep ++ joinWith sep (l2 :: ls2) = _
        rw [huv]
        simp

theorem wrap_decomp {core x : List Char} (before after : List Char)
    (h : ∃ u v, core = u ++ x ++ v) :
    ∃ u v, before ++ core ++ after = u ++ x ++ v := by
  obtain ⟨u, v, rfl⟩ := h
  exact ⟨before ++ u, v ++ after, by simp⟩

theorem tagged_items_getElem (f : Nat → List Char → List Char) (texts : List (List Char))
    (i : Nat) (h : i < texts.length) :
    (texts.enum.map fun p => f (p.1 + 1) p.2)[i]? = some (f (i + 1) (texts.getD i [])) := by
  rw [List.getElem?_map, List.getElem?_enum, List.getElem?_eq_getElem h]
  rw [List.getD_eq_getElem?_getD texts i [], List.getElem?_eq_getElem h]
  rfl

/-- C8 (confirmed).  Both prompt builders embed, for every position `i`
(1-based ordinal `i+1` at 0-based index `i`), the tagged item line
`[i+1] <text_i>` in the produced prompt, and consecutive tagged lines
appear adjacently separated by exactly one blank line (`"\n\n"`), all
inside the fixed instruction template.  The builders are pure functions
of the text list. -/
theorem C8_prompt_builder (texts : List (List Char)) :
    (∀ i, i < texts.length →
      (∃ u v, MainCode.buildPrompt texts =
          u ++ MainCode.taggedLine (i + 1) (texts.getD i []) ++ v) ∧
      ∃ u v, StreamlitApp.buildPrompt texts =
          u ++ StreamlitApp.taggedLine (i + 1) (texts.getD i []) ++ v) ∧
    ∀ i, i + 1 < texts.length →
      (∃ u v, MainCode.buildPrompt texts =
          u ++ (MainCode.taggedLine (i + 1) (texts.getD i []) ++ '\n' :: '\n' ::
            MainCode.taggedLine (i + 2) (texts.getD (i + 1) [])) ++ v) ∧
      ∃ u v, StreamlitApp.buildPrompt texts =
          u ++ (StreamlitApp.taggedLine (i + 1) (texts.getD i []) ++ '\n' :: '\n' ::
            StreamlitApp.taggedLine (i + 2) (texts.getD (i + 1) [])) ++ v := by
  constructor
  · intro i hi
    constructor
    · apply wrap_decomp MainCode.templateBefore MainCode.templateAfter
      apply joinWith_mem_decomp
      have := tagged_items_getElem MainCode.taggedLine texts i hi
      exact List.getElem?_mem this
    · apply wrap_decomp StreamlitApp.templateBefore StreamlitApp.templateAfter
      apply joinWith_mem_decomp
      have := tagged_items_getElem StreamlitApp.taggedLine texts i hi
      exact List.getElem?_mem this
  · intro i hi
    constructor
    · apply wrap_decomp MainCode.templateBefore MainCode.templateAfter
      have h1 := tagged_items_getElem MainCode.taggedLine texts i (by omega)
      have h2 := tagged_items_getElem MainCode.taggedLine texts (i + 1) hi
      obtain ⟨u, v, huv⟩ :=
        joinWith_adjacent_decomp ('\n' :: '\n' :: [])
          (texts.enum.map fun p => MainCode.taggedLine (p.1 + 1) p.2) i _ _ h1 h2
      exact ⟨u, v, by rw [huv]; simp⟩
    · apply wrap_decomp StreamlitApp.templateBefore StreamlitApp.templateAfter
      have h1 := tagged_items_getElem StreamlitApp.taggedLine texts i (by omega)
      have h2 := tagged_items_getElem StreamlitApp.taggedLine texts (i + 1) hi
      obtain ⟨u, v, huv⟩ :=
        joinWith_adjacent_decomp ('\n' :: '\n' :: [])
          (texts.enum.map fun p => StreamlitApp.taggedLine (p.1 + 1) p.2) i _ _ h1 h2
      exact ⟨u, v, by rw [huv]; simp⟩

/-- C8 (witness). -/
theorem C8_witness :
    ((∃ u v, MainCode.buildPrompt [['h'], ['i']] =
        u ++ MainCode.taggedLine (0 + 1) (([['h'], ['i']] : List (List Char)).getD 0 []) ++ v) ∧
      ∃ u v, StreamlitApp.buildPrompt [['h'], ['i']] =
        u ++ StreamlitApp.taggedLine (0 + 1) (([['h'], ['i']] : List (List Char)).getD 0 []) ++ v) ∧
    (∃ u v, MainCode.buildPrompt [['h'], ['i']] =
        u ++ (MainCode.taggedLine (0 + 1) (([['h'], ['i']] : List (List Char)).getD 0 []) ++
          '\n' :: '\n' ::
          MainCode.taggedLine (0 + 2) (([['h'], ['i']] : List (List Char)).getD (0 + 1) [])) ++ v) ∧
      ∃ u v, StreamlitApp.buildPrompt [['h'], ['i']] =
        u ++ (StreamlitApp.taggedLine (0 + 1) (([['h'], ['i']] : List (List Char)).getD 0 []) ++
          '\n' :: '\n' ::
          StreamlitApp.taggedLine (0 + 2) (([['h'], ['i']] : List (List Char)).getD (0 + 1) [])) ++ v :=
  ⟨(C8_prompt_builder [['h'], ['i']]).1 0 (by decide),
   (C8_prompt_builder [['h'], ['i']]).2 0 (by decide)⟩

/-! ### Space-joining of entry pieces (multi-line entries) -/

theorem joinPieces_eq : ∀ (cs : List (List Char)) (t : List Char),
    joinPieces t cs = t ++ (cs.map fun c => ' ' :: c).join := by
  intro cs
  induction cs with
  | nil => intro t; simp [joinPieces]
  | cons c cs ih =>
    intro t
    show joinPieces (t ++ ' ' :: c) cs = _
    rw [ih (t ++ ' ' :: c)]
    simp

theorem joinWith_space_cons : ∀ (cs : List (List Char)) (x : List Char),
    joinWith (' ' :: []) (x :: cs) = x ++ (cs.map fun c => ' ' :: c).join := by
  intro cs
  induction cs with
  | nil => intro x; simp [joinWith]
  | cons c cs ih =>
    intro x
    show x ++ (' ' :: []) ++ joinWith (' ' :: []) (c :: cs) = _
    rw [ih c]
    simp

theorem rstrip_pyStrip (w : List Char) : rstrip (pyStrip w) = pyStrip w := by
  show rstrip (lstrip (rstrip w)) = lstrip (rstrip w)
  rw [rstrip_lstrip_comm (rstrip w), rstrip_idem]

theorem lstrip_pyStrip (w : List Char) : lstrip (pyStrip w) = pyStrip w := by
  show lstrip (lstrip (rstrip w)) = lstrip (rstrip w)
  rw [lstrip_idem]

theorem lstrip_fixed_head {c : Char} {x : List Char} (h : lstrip (c :: x) = c :: x) :
    isPySpace c = false := by
  rcases hh : isPySpace c with _ | _
  · rfl
  · exfalso
    have hlen : (lstrip (c :: x)).length ≤ x.length := by
      rw [lstrip_cons_of_space x hh]
      exact (List.dropWhile_sublist isPySpace).length_le
    rw [h] at hlen
    simp at hlen

theorem lstrip_append_fixed {x : List Char} (y : List Char) (hx : x ≠ [])
    (hf : lstrip x = x) : lstrip (x ++ y) = x ++ y := by
  rcases x with _ | ⟨c, x'⟩
  · exact absurd rfl hx
  · rw [List.cons_append, lstrip_cons_of_not_space _ (lstrip_fixed_head hf)]

theorem joinWith_space_ne_nil {x : List Char} (cs : List (List Char)) (hx : x ≠ []) :
    joinWith (' ' :: []) (x :: cs) ≠ [] := by
  rw [joinWith_space_cons]
  intro hcon
  exact hx (List.append_eq_nil.mp hcon).1

theorem rstrip_joinWith_space : ∀ (cs : List (List Char)) (x : List Char), x ≠ [] →
    rstrip x = x → (∀ c ∈ cs, c ≠ [] ∧ rstrip c = c) →
    rstrip (joinWith (' ' :: []) (x :: cs)) = joinWith (' ' :: []) (x :: cs) := by
  intro cs
  induction cs with
  | nil => intro x _ hxf _; exact hxf
  | cons c cs ih =>
    intro x hx hxf hcs
    have hc := hcs c (List.mem_cons_self c cs)
    have hJ : rstrip (joinWith (' ' :: []) (c :: cs)) = joinWith (' ' :: []) (c :: cs) :=
      ih c hc.1 hc.2 fun y hy => hcs y (List.mem_cons_of_mem c hy)
    have hJne : joinWith (' ' :: []) (c :: cs) ≠ [] := joinWith_space_ne_nil cs hc.1
    show rstrip (x ++ (' ' :: []) ++ joinWith (' ' :: []) (c :: cs)) = _
    rw [List.append_assoc, List.cons_append, List.nil_append,
      rstrip_append_of_ne_nil x (by rw [rstrip_cons_of_ne ' ' (by rw [hJ]; exact hJne)]; simp),
      rstrip_cons_of_ne ' ' (by rw [hJ]; exact hJne), hJ]
    simp [joinWith]

theorem pyStrip_joinWith_space (cs : List (List Char)) (x : List Char) (hx : x ≠ [])
    (hxf : x = pyStrip x) (hcs : ∀ c ∈ cs, c ≠ [] ∧ c = pyStrip c) :
    pyStrip (joinWith (' ' :: []) (x :: cs)) = joinWith (' ' :: []) (x :: cs) := by
  have hxr : rstrip x = x := by rw [hxf]; exact rstrip_pyStrip x
  have hxl : lstrip x = x := by rw [hxf]; exact lstrip_pyStrip x
  have hcs' : ∀ c ∈ cs, c ≠ [] ∧ rstrip c = c := by
    intro c hc
    refine ⟨(hcs c hc).1, ?_⟩
    rw [(hcs c hc).2]
    exact rstrip_pyStrip c
  show lstrip (rstrip (joinWith (' ' :: []) (x :: cs))) = _
  rw [rstrip_joinWith_space cs x hx hxr hcs']
  cases cs with
  | nil => exact hxl
  | cons c cs2 =>
    show lstrip (x ++ (' ' :: []) ++ joinWith (' ' :: []) (c :: cs2)) = _
    rw [List.append_assoc, lstrip_append_fixed _ hx hxl]
    simp [joinWith]

theorem pyStrip_joinPieces (x : List Char) (cs : List (List Char))
    (hxf : x = pyStrip x) (hcs : ∀ c ∈ cs, c ≠ [] ∧ c = pyStrip c) :
    pyStrip (joinPieces x cs) =
      joinWith (' ' :: []) ((x :: cs).filter fun l => !l.isEmpty) := by
  have hfilcs : cs.filter (fun l => !l.isEmpty) = cs :=
    List.filter_eq_self.mpr fun c hc => by
      rcases hcc : c with _ | _
      · exact absurd hcc (hcs c hc).1
      · rfl
  by_cases hxe : x = []
  · subst hxe
    rw [List.filter_cons_of_neg (by simp), hfilcs, joinPieces_eq]
    cases cs with
    | nil => rfl
    | cons c cs2 =>
      show pyStrip ([] ++ (' ' :: c ++ ((cs2.map fun c => ' ' :: c).join))) = _
      rw [List.nil_append]
      have : ' ' :: c ++ (cs2.map fun c => ' ' :: c).join =
          ' ' :: joinWith (' ' :: []) (c :: cs2) := by
        rw [joinWith_space_cons]
        simp
      rw [this, pyStrip_cons_of_space _ (by decide)]
      exact pyStrip_joinWith_space cs2 c (hcs c (List.mem_cons_self c cs2)).1
        (hcs c (List.mem_cons_self c cs2)).2
        fun y hy => hcs y (List.mem_cons_of_mem c hy)
  · have hpos : (!x.isEmpty) = true := by
      rcases x with _ | ⟨hh, tt⟩
      · exact absurd rfl hxe
      · rfl
    rw [@List.filter_cons_of_pos _ (fun l => !l.isEmpty) x cs hpos,
      hfilcs, joinPieces_eq, ← joinWith_space_cons]
    exact pyStrip_joinWith_space cs x hxe hxf hcs

/-! ### Scanning continuation lines and multi-line entry blocks -/

theorem scanCore_conts : ∀ (cs : List (List Char)), (∀ c ∈ cs, parseMarker c = none) →
    ∀ (rest : List (List Char)) (i : Nat) (t : List Char),
      scanCore (cs ++ rest) (some i) t = scanCore rest (some i) (joinPieces t cs) := by
  intro cs
  induction cs with
  | nil => intro _ rest i t; rfl
  | cons c cs ih =>
    intro h rest i t
    have hc : parseMarker c = none := h c (List.mem_cons_self c cs)
    show scanCore (c :: (cs ++ rest)) (some i) t = _
    simp only [scanCore, hc]
    exact ih (fun y hy => h y (List.mem_cons_of_mem c hy)) rest i (t ++ ' ' :: c)

theorem filter_normList (L : List (List Char)) :
    (normList L).filter (fun l => !l.isEmpty) = normList L :=
  List.filter_eq_self.mpr fun l hl => by
    rcases hll : l with _ | _
    · exact absurd hll (normList_mem hl).2
    · rfl

theorem entryText_eq (t0 : List Char) (cs : List (List Char)) :
    joinWith (' ' :: []) ((pyStrip t0 :: normList cs).filter fun l => !l.isEmpty) =
      entryText t0 cs := by
  unfold entryText
  by_cases h : pyStrip t0 = []
  · rw [List.filter_cons_of_neg (by simp [h]), List.filter_cons_of_neg (by simp [h]),
      filter_normList]
    rfl
  · have hpos : (!(pyStrip t0).isEmpty) = true := by
      rcases hh : pyStrip t0 with _ | _
      · exact absurd hh h
      · rfl
    rw [@List.filter_cons_of_pos _ (fun l => !l.isEmpty) _ (normList cs) hpos,
      @List.filter_cons_of_pos _ (fun l => !l.isEmpty) _ (cs.map pyStrip) hpos,
      filter_normList]
    rfl

theorem normList_elem_nonmarker {cs : List (List Char)}
    (h : ∀ c ∈ cs, parseMarker (pyStrip c) = none) :
    ∀ l ∈ normList cs, parseMarker l = none := by
  intro l hl
  simp only [normList, List.mem_filter, List.mem_map] at hl
  obtain ⟨⟨x, hx, rfl⟩, _⟩ := hl
  exact h x hx

theorem scanCore_blocks : ∀ (bs : List (Nat × List Char × List (List Char))),
    (∀ b ∈ bs, ∀ c ∈ b.2.2, parseMarker (pyStrip c) = none) →
    (∀ i t, scanCore ((bs.map fun b => normList (blockLines b)).join) (some i) t =
      (i, pyStrip t) :: bs.map fun b => (b.1, entryText b.2.1 b.2.2)) ∧
    (∀ t, scanCore ((bs.map fun b => normList (blockLines b)).join) none t =
      bs.map fun b => (b.1, entryText b.2.1 b.2.2)) := by
  intro bs
  induction bs with
  | nil => intro _; exact ⟨fun _ _ => rfl, fun _ => rfl⟩
  | cons b bs ih =>
    intro h
    have hb : ∀ c ∈ b.2.2, parseMarker (pyStrip c) = none := h b (List.mem_cons_self b bs)
    have ihs := ih fun b' hb' => h b' (List.mem_cons_of_mem b hb')
    have hblock : normList (blockLines b) =
        pyStrip (markerLine b.1 b.2.1) :: normList b.2.2 :=
      normList_cons_of_ne _ (pyStrip_markerLine_ne_nil b.1 b.2.1)
    have hentry : pyStrip (joinPieces (pyStrip b.2.1) (normList b.2.2)) =
        entryText b.2.1 b.2.2 := by
      rw [pyStrip_joinPieces (pyStrip b.2.1) (normList b.2.2) (pyStrip_idem b.2.1).symm
        (fun c hc => ⟨(normList_mem hc).2, ((normList_mem hc).1).symm⟩)]
      exact entryText_eq b.2.1 b.2.2
    have hkey : ∀ st : Option Nat, ∀ t,
        scanCore (((b :: bs).map fun b => normList (blockLines b)).join) st t =
          (match st with
           | none => []
           | some i => [(i, pyStrip t)]) ++
            (b.1, entryText b.2.1 b.2.2) :: bs.map fun b => (b.1, entryText b.2.1 b.2.2) := by
      intro st t
      rw [List.map_cons]
      show scanCore
        (normList (blockLines b) ++ (bs.map fun b => normList (blockLines b)).join) st t = _
      rw [hblock]
      show scanCore (pyStrip (markerLine b.1 b.2.1) ::
        (normList b.2.2 ++ (bs.map fun b => normList (blockLines b)).join)) st t = _
      simp only [scanCore, parseMarker_pyStrip_markerLine b.1 b.2.1]
      rw [scanCore_conts (normList b.2.2) (normList_elem_nonmarker hb) _ b.1
        (pyStrip (rstrip (' ' :: b.2.1)))]
      have hsame : scanCore ((bs.map fun b => normList (blockLines b)).join) (some b.1)
          (joinPieces (pyStrip (rstrip (' ' :: b.2.1))) (normList b.2.2)) =
          (b.1, entryText b.2.1 b.2.2) :: bs.map fun b => (b.1, entryText b.2.1 b.2.2) := by
        rw [ihs.1 b.1 _, pyStrip_rstrip_space_cons b.2.1, hentry]
      cases st with
      | none => rw [hsame]; rfl
      | some i => rw [hsame]; rfl
    constructor
    · intro i t
      exact hkey (some i) t
    · intro t
      exact hkey none t

theorem normList_join : ∀ LL : List (List (List Char)),
    normList LL.join = (LL.map normList).join := by
  intro LL
  induction LL with
  | nil => rfl
  | cons l ls ih =>
    show normList (l ++ ls.join) = normList l ++ (ls.map normList).join
    rw [normList_append, ih]

/-- C6 (confirmed).  For a response made of non-marker prose lines
followed by entry blocks, each a marker line `[k] t0` plus continuation
lines that do not match the marker pattern, the parser produces exactly
one entry per block whose text is the single-space join of the block's
stripped non-blank pieces; the prose lines before the first entry
contribute nothing. -/
theorem C6_multiline_reassembly (pre : List (List Char))
    (bs : List (Nat × List Char × List (List Char)))
    (hpre : ∀ l ∈ pre, '\n' ∉ l ∧ parseMarker (pyStrip l) = none)
    (hbs : ∀ b ∈ bs, '\n' ∉ b.2.1 ∧ ∀ c ∈ b.2.2, '\n' ∉ c ∧ parseMarker (pyStrip c) = none) :
    MainCode.parseTranslations (joinWith ['\n'] (pre ++ (bs.map blockLines).join)) =
      bs.map fun b => (b.1, entryText b.2.1 b.2.2) := by
  by_cases hemp : pre = [] ∧ bs = []
  · obtain ⟨rfl, rfl⟩ := hemp
    rfl
  · have hne : pre ++ (bs.map blockLines).join ≠ [] := by
      intro hcon
      rw [List.append_eq_nil] at hcon
      apply hemp
      refine ⟨hcon.1, ?_⟩
      rcases bs with _ | ⟨b, bs'⟩
      · rfl
      · exfalso
        have h1 : (blockLines b :: bs'.map blockLines).join = [] := hcon.2
        rw [show (blockLines b :: bs'.map blockLines).join
            = blockLines b ++ (bs'.map blockLines).join from rfl] at h1
        have h2 : blockLines b = [] := (List.append_eq_nil.mp h1).1
        exact absurd h2 (by simp [blockLines])
    have hnl : ∀ l ∈ pre ++ (bs.map blockLines).join, '\n' ∉ l := by
      intro l hl
      rcases List.mem_append.mp hl with hl | hl
      · exact (hpre l hl).1
      · rw [List.mem_join] at hl
        obtain ⟨ls, hls, hlin⟩ := hl
        rw [List.mem_map] at hls
        obtain ⟨b, hbm, rfl⟩ := hls
        rcases List.mem_cons.mp hlin with h' | h'
        · rw [h']
          exact markerLine_no_newline b.1 (hbs b hbm).1
        · exact ((hbs b hbm).2 l h').1
    show MainCode.scanLines (pySplit '\n' (pyStrip _)) none [] = _
    rw [scanLines_eq_scanCore]
    show scanCore (normL (pyStrip _)) none [] = _
    rw [normL_pyStrip]
    show scanCore
        (normList (pySplit '\n' (joinWith ['\n'] (pre ++ (bs.map blockLines).join)))) none [] = _
    rw [pySplit_joinWith hne hnl, normList_append, normList_join, List.map_map,
      scanCore_nonmarker_skip ((bs.map (normList ∘ blockLines)).join)
        (normList_elem_nonmarker fun l hl => (hpre l hl).2) []]
    exact (scanCore_blocks bs fun b hbm c hc => ((hbs b hbm).2 c hc).2).2 []

/-- C6 (witness). -/
theorem C6_witness :
    MainCode.parseTranslations
        (joinWith ['\n'] (["note".data] ++
          (([(1, "hel".data, ["lo".data]), (2, "bye".data, [])] :
            List (Nat × List Char × List (List Char))).map blockLines).join)) =
      ([(1, "hel".data, ["lo".data]), (2, "bye".data, [])] :
          List (Nat × List Char × List (List Char))).map
        fun b => (b.1, entryText b.2.1 b.2.2) :=
  C6_multiline_reassembly ["note".data]
    [(1, "hel".data, ["lo".data]), (2, "bye".data, [])]
    (by decide) (by decide)
